import Mathlib

/-!
Verification of the depth-noise synthesis and validity-tracking pipeline of the
rgbd_image_generator repository (`src/improc/depth_noise.py`), its noise
configuration parsing (`src/config/config_parser.py`), and the visualizer
contract (`toDisplay`, spec §4.5).

Depth frames are embedded as functions `ι → FloatVal` over an arbitrary pixel
index type `ι`; validity masks as `ι → Bool`.  Pixel values are idealized
IEEE floats: a finite value is an exact rational, and the non-finite values
nan / inf / -inf are explicit constructors, so that `np.isfinite`, comparisons
with nan / ±inf, and the propagation of non-finite values through arithmetic
are modelled faithfully.  Randomness (`np.random.normal`, `np.random.rand`) is
threaded explicitly: each stochastic operator carries the concrete sample
array it draws, and properties are quantified over all sample arrays.
-/

/-- Idealized IEEE floating-point value: an exact rational, or one of the
non-finite values NaN, +inf, -inf. -/
inductive FloatVal where
  | fin (q : ℚ)
  | nan
  | inf
  | neginf
deriving DecidableEq

namespace FloatVal

/-- Embedding of `np.isfinite`. -/
def isFinite : FloatVal → Bool
  | fin _ => true
  | _ => false

/-- Embedding of the elementwise comparison `d > 0.0` (IEEE: nan compares
false, +inf > 0 is true, -inf > 0 is false). -/
def gtZero : FloatVal → Bool
  | fin q => decide (0 < q)
  | inf => true
  | _ => false

/-- Embedding of the elementwise comparison `d <= c` against a finite
constant (IEEE: nan compares false, -inf <= c is true, +inf <= c is false). -/
def leConst : FloatVal → ℚ → Bool
  | fin q, c => decide (q ≤ c)
  | neginf, _ => true
  | _, _ => false

/-- The rational carried by a finite value (0 for non-finite values; only
used at pixels already known to be finite). -/
def toRat : FloatVal → ℚ
  | fin q => q
  | _ => 0

/-- Addition of a finite noise sample (IEEE: nan and ±inf absorb a finite
addend). -/
def addFin : FloatVal → ℚ → FloatVal
  | fin q, n => fin (q + n)
  | nan, _ => nan
  | inf, _ => inf
  | neginf, _ => neginf

/-- Multiplication by a finite scale factor (IEEE: nan absorbs; ±inf flips
with the sign of the scale and gives nan at scale 0). -/
def mulFin : FloatVal → ℚ → FloatVal
  | fin q, s => fin (q * s)
  | nan, _ => nan
  | inf, s => if 0 < s then inf else if s < 0 then neginf else nan
  | neginf, s => if 0 < s then neginf else if s < 0 then inf else nan

end FloatVal

/-- Embedding of `np.round`: round half to even (banker's rounding), the
rounding mode numpy documents and uses. -/
def roundHalfEven (q : ℚ) : ℤ :=
  if q - ⌊q⌋ < 1 / 2 then ⌊q⌋
  else if 1 / 2 < q - ⌊q⌋ then ⌊q⌋ + 1
  else if ⌊q⌋ % 2 = 0 then ⌊q⌋ else ⌊q⌋ + 1

/-- Quantization of one pixel: `np.round(v / step) * step` (non-finite values
propagate through division by a positive step, `np.round`, and the final
multiplication unchanged). -/
def FloatVal.quantize (step : ℚ) : FloatVal → FloatVal
  | .fin q => .fin ((roundHalfEven (q / step) : ℚ) * step)
  | .nan => .nan
  | .inf => .inf
  | .neginf => .neginf

/-- Embedding of `GaussianDepthNoise.apply` (`depth_noise.py:37`): additive
Gaussian noise on valid pixels.  `noise` is the sampled array
`np.random.normal(0.0, sigma_m, size=d.shape)`. -/
def gaussianApply {ι : Type} (sigma_m : ℚ) (noise : ι → ℚ)
    (d : ι → FloatVal) (valid_mask : ι → Bool) :
    (ι → FloatVal) × (ι → Bool) :=
  if sigma_m ≤ 0 then (d, valid_mask)
  else (fun i => if valid_mask i then (d i).addFin (noise i) else d i, valid_mask)

/-- Embedding of `MultiplicativeDepthNoise.apply` (`depth_noise.py:52`):
`d *= (1 + N(0, sigma_rel))` on valid pixels.  `noise` is the sampled array
`np.random.normal(0.0, sigma_rel, size=d.shape)`, so the scale at pixel `i`
is `1 + noise i`. -/
def multiplicativeApply {ι : Type} (sigma_rel : ℚ) (noise : ι → ℚ)
    (d : ι → FloatVal) (valid_mask : ι → Bool) :
    (ι → FloatVal) × (ι → Bool) :=
  if sigma_rel ≤ 0 then (d, valid_mask)
  else (fun i => if valid_mask i then (d i).mulFin (1 + noise i) else d i, valid_mask)

/-- Embedding of `QuantizationDepthNoise.apply` (`depth_noise.py:69`):
uniform quantization with step size `step_m` on valid pixels. -/
def quantizationApply {ι : Type} (step_m : ℚ)
    (d : ι → FloatVal) (valid_mask : ι → Bool) :
    (ι → FloatVal) × (ι → Bool) :=
  if step_m ≤ 0 then (d, valid_mask)
  else (fun i => if valid_mask i then (d i).quantize step_m else d i, valid_mask)

/-- Embedding of `DropoutDepthNoise.apply` (`depth_noise.py:87`): drop
currently-valid pixels whose uniform sample `rand i` (from
`np.random.rand(*d.shape)`) is below `p`, writing `fill` and clearing the
mask there.  The source's `if not np.any(drop): return d, valid_mask`
short-circuit returns the unmodified arrays and is extensionally the same
function, so it is not reproduced here. -/
def dropoutApply {ι : Type} (p : ℚ) (fill : FloatVal) (rand : ι → ℚ)
    (d : ι → FloatVal) (valid_mask : ι → Bool) :
    (ι → FloatVal) × (ι → Bool) :=
  if p ≤ 0 then (d, valid_mask)
  else
    let drop : ι → Bool := fun i => decide (rand i < p) && valid_mask i
    (fun i => if drop i then fill else d i,
     fun i => if drop i then false else valid_mask i)

/-- Closed sum of the four noise operators of `depth_noise.py`, each stochastic
one carrying the concrete random sample array drawn for this invocation. -/
inductive NoiseOp (ι : Type) where
  | gaussian (sigma_m : ℚ) (noise : ι → ℚ)
  | multiplicative (sigma_rel : ℚ) (noise : ι → ℚ)
  | quantization (step_m : ℚ)
  | dropout (p : ℚ) (fill : FloatVal) (rand : ι → ℚ)

/-- Dispatch of `DepthNoiseModel.apply` over the four operator variants. -/
def NoiseOp.apply {ι : Type} :
    NoiseOp ι → (ι → FloatVal) → (ι → Bool) → (ι → FloatVal) × (ι → Bool)
  | gaussian s n, d, m => gaussianApply s n d m
  | multiplicative s n, d, m => multiplicativeApply s n d m
  | quantization s, d, m => quantizationApply s d m
  | dropout p f r, d, m => dropoutApply p f r d m

/-- Embedding of `_initial_valid_mask` (`depth_noise.py:105`): finite and
strictly positive, and additionally `≤ zmax` when `zmax` is given and
positive. -/
def initial_valid_mask {ι : Type} (d : ι → FloatVal) (zmax_m : Option ℚ) :
    ι → Bool :=
  match zmax_m with
  | some z =>
      if 0 < z then fun i => ((d i).isFinite && (d i).gtZero) && (d i).leConst z
      else fun i => (d i).isFinite && (d i).gtZero
  | none => fun i => (d i).isFinite && (d i).gtZero

/-- Step 2 of `apply_noise_chain`: run the operators in configured order,
threading (frame, mask). -/
def run_noises {ι : Type} (noises : List (NoiseOp ι))
    (s : (ι → FloatVal) × (ι → Bool)) : (ι → FloatVal) × (ι → Bool) :=
  noises.foldl (fun s n => NoiseOp.apply n s.1 s.2) s

/-- Embedding of `apply_noise_chain` (`depth_noise.py:115`): initial validity,
operator chain, sanitization of post-noise values, and filling of invalid
pixels with `invalid_fill`. -/
def apply_noise_chain {ι : Type} (depth_m : ι → FloatVal)
    (noises : List (NoiseOp ι)) (zmax_m : Option ℚ) (invalid_fill : FloatVal)
    (nonpositive_to_zero : Bool) : ι → FloatVal :=
  let valid0 := initial_valid_mask depth_m zmax_m
  let s := run_noises noises (depth_m, valid0)
  let d := s.1
  let is_finite_pos : ι → Bool :=
    if nonpositive_to_zero then fun i => (d i).isFinite && (d i).gtZero
    else fun i => (d i).isFinite
  let valid : ι → Bool :=
    match zmax_m with
    | some z =>
        if 0 < z then fun i => is_finite_pos i && (d i).leConst z
        else is_finite_pos
    | none => is_finite_pos
  fun i => if valid i then d i else invalid_fill

/-- Clamp a rational to `[lo, hi]`, as `np.clip` / the spec's
`clamp(value, lo, hi)` on finite values. -/
def clampQ (x lo hi : ℚ) : ℚ := min (max x lo) hi

/-- Modelled from the spec: the visualizer's notion of a currently-valid
pixel (§4.2 / §4.5) — finite, strictly positive, and within `zmax` when a
positive `zmax` is configured.  The current-revision visualizer
(`visualize_exr_to_png(depth, path, zmax, invalid_color=...)` as called from
`cli_depth_viz_batch.py:48` and `cli_depth_noise_batch.py:97`) is absent from
the source tree — only a stale revision with an incompatible signature
remains — so it is modelled here from the spec's words. -/
def vizValid {ι : Type} (d : ι → FloatVal) (zmax : ℚ) : ι → Bool :=
  fun i =>
    ((d i).isFinite && (d i).gtZero) &&
      (if 0 < zmax then (d i).leConst zmax else true)

/-- Modelled from the spec: the visualizer's display ceiling (§4.5) — `zmax`
when `zmax > 0`, otherwise the maximum value among currently-valid pixels,
falling back to 1.0 when no pixel is valid. -/
def displayCeiling {ι : Type} [Fintype ι] (d : ι → FloatVal) (zmax : ℚ) : ℚ :=
  if 0 < zmax then zmax
  else
    let s := Finset.univ.filter (fun i => vizValid d zmax i = true)
    if h : s.Nonempty then s.sup' h (fun i => (d i).toRat) else 1

/-- Modelled from the spec: the single-channel 16-bit display encoding
(§4.5) — invalid pixels encode as 0, valid pixels as
`round(clamp(value, 0, ceiling) / ceiling * 65535)`. -/
def toDisplay16 {ι : Type} [Fintype ι] (d : ι → FloatVal) (zmax : ℚ) :
    ι → ℤ :=
  let c := displayCeiling d zmax
  fun i =>
    if vizValid d zmax i then roundHalfEven (clampQ (d i).toRat 0 c / c * 65535)
    else 0

/-- Modelled from the spec: the 3-channel 8-bit display encoding (§4.5), used
when an `invalidColor` is supplied — valid pixels render as the grayscale
triple `round(clamp(value, 0, ceiling) / ceiling * 255)` replicated across
channels, invalid pixels as the literal `invalidColor` triple. -/
def toDisplay8 {ι : Type} [Fintype ι] (d : ι → FloatVal) (zmax : ℚ)
    (invalidColor : ℤ × ℤ × ℤ) : ι → ℤ × ℤ × ℤ :=
  let c := displayCeiling d zmax
  fun i =>
    if vizValid d zmax i then
      let g := roundHalfEven (clampQ (d i).toRat 0 c / c * 255)
      (g, g, g)
    else invalidColor

/-- Parsed Gaussian noise configuration (`config_types.py`). -/
structure GaussianNoiseConfig where
  enabled : Bool
  sigma_m : ℚ
deriving DecidableEq

/-- Parsed multiplicative noise configuration (`config_types.py`). -/
structure MultiplicativeNoiseConfig where
  enabled : Bool
  sigma_rel : ℚ
deriving DecidableEq

/-- Parsed quantization noise configuration (`config_types.py`). -/
structure QuantizationNoiseConfig where
  enabled : Bool
  step_m : ℚ
deriving DecidableEq

/-- Parsed dropout noise configuration (`config_types.py`). -/
structure DropoutNoiseConfig where
  enabled : Bool
  p : ℚ
  fill : ℚ
deriving DecidableEq

/-- Parsed noise configuration (`config_types.py`). -/
structure NoiseConfig where
  enabled : Bool
  gaussian : GaussianNoiseConfig
  multiplicative : MultiplicativeNoiseConfig
  quantization : QuantizationNoiseConfig
  dropout : DropoutNoiseConfig
deriving DecidableEq

/-- One raw TOML noise sub-table as `_parse_noise` reads it: every key
optional, numeric values already coerced to float.  A missing key makes the
corresponding `_get(..., default)` fall back to its default. -/
structure RawNoiseSection where
  enabled : Option Bool := none
  sigma_m : Option ℚ := none
  sigma_rel : Option ℚ := none
  step_m : Option ℚ := none
  p : Option ℚ := none
  fill : Option ℚ := none

/-- The raw `[noise]` TOML table as `_parse_noise` reads it: the four
sub-tables, each possibly missing (`nraw.get(name, \x7b\x7d) or \x7b\x7d`). -/
structure RawNoiseTable where
  enabled : Option Bool := none
  gaussian : Option RawNoiseSection := none
  multiplicative : Option RawNoiseSection := none
  quantization : Option RawNoiseSection := none
  dropout : Option RawNoiseSection := none

/-- Embedding of `_parse_noise` (`config_parser.py:165`): read each sub-table
with its defaults (`enabled=False`, numeric parameters 0.0, top-level
`enabled=True`).  The source performs no domain validation and can raise
nothing beyond float coercion, so the embedding is a total function. -/
def parse_noise (raw : RawNoiseTable) : NoiseConfig :=
  let graw := raw.gaussian.getD {}
  let mraw := raw.multiplicative.getD {}
  let qraw := raw.quantization.getD {}
  let draw := raw.dropout.getD {}
  { enabled := raw.enabled.getD true
    gaussian := { enabled := graw.enabled.getD false, sigma_m := graw.sigma_m.getD 0 }
    multiplicative :=
      { enabled := mraw.enabled.getD false, sigma_rel := mraw.sigma_rel.getD 0 }
    quantization := { enabled := qraw.enabled.getD false, step_m := qraw.step_m.getD 0 }
    dropout :=
      { enabled := draw.enabled.getD false, p := draw.p.getD 0, fill := draw.fill.getD 0 } }

/-- Follows the spec's words (§3, §7): every noise parameter is inside its
valid domain — non-negative sigmas and step, dropout probability in [0,1].
Stated from the spec, to be compared against what `parse_noise` accepts. -/
def specNoiseParamsInDomain (c : NoiseConfig) : Prop :=
  0 ≤ c.gaussian.sigma_m ∧ 0 ≤ c.multiplicative.sigma_rel ∧
    0 ≤ c.quantization.step_m ∧ 0 ≤ c.dropout.p ∧ c.dropout.p ≤ 1

instance (c : NoiseConfig) : Decidable (specNoiseParamsInDomain c) := by
  unfold specNoiseParamsInDomain
  infer_instance

/-! ### Helper lemmas -/

theorem roundHalfEven_intCast (n : ℤ) : roundHalfEven (n : ℚ) = n := by
  simp [roundHalfEven, Int.floor_intCast]

theorem floor_le_roundHalfEven (q : ℚ) : ⌊q⌋ ≤ roundHalfEven q := by
  unfold roundHalfEven
  split
  · exact le_rfl
  split
  · exact le_of_lt (lt_add_one _)
  split
  · exact le_rfl
  · exact le_of_lt (lt_add_one _)

theorem roundHalfEven_le_ceil (q : ℚ) : roundHalfEven q ≤ ⌈q⌉ := by
  have hfc : ⌊q⌋ ≤ ⌈q⌉ := Int.floor_le_ceil q
  have hkey : ¬ q - ⌊q⌋ < 1 / 2 → ⌊q⌋ + 1 ≤ ⌈q⌉ := by
    intro h1
    have hhalf : (1 : ℚ) / 2 ≤ q - ⌊q⌋ := not_lt.mp h1
    have hq : (⌊q⌋ : ℚ) < q := by linarith
    exact Int.lt_ceil.mpr hq
  unfold roundHalfEven
  split
  · exact hfc
  next h1 =>
    split
    · exact hkey h1
    split
    · exact hfc
    · exact hkey h1

theorem roundHalfEven_nonneg {q : ℚ} (h : 0 ≤ q) : 0 ≤ roundHalfEven q :=
  le_trans (Int.le_floor.mpr (by exact_mod_cast h)) (floor_le_roundHalfEven q)

theorem roundHalfEven_le_of_le {q : ℚ} (n : ℤ) (h : q ≤ (n : ℚ)) :
    roundHalfEven q ≤ n :=
  le_trans (roundHalfEven_le_ceil q) (Int.ceil_le.mpr h)

theorem FloatVal.quantize_quantize (step : ℚ) (h : 0 < step) (x : FloatVal) :
    (x.quantize step).quantize step = x.quantize step := by
  cases x with
  | fin q =>
    have hne : step ≠ 0 := ne_of_gt h
    simp only [quantize]
    rw [mul_div_cancel_right₀ _ hne, roundHalfEven_intCast]
  | nan => rfl
  | inf => rfl
  | neginf => rfl

theorem gaussianApply_snd {ι : Type} (s : ℚ) (n : ι → ℚ) (d : ι → FloatVal)
    (m : ι → Bool) : (gaussianApply s n d m).2 = m := by
  unfold gaussianApply
  split <;> rfl

theorem multiplicativeApply_snd {ι : Type} (s : ℚ) (n : ι → ℚ)
    (d : ι → FloatVal) (m : ι → Bool) : (multiplicativeApply s n d m).2 = m := by
  unfold multiplicativeApply
  split <;> rfl

theorem quantizationApply_snd {ι : Type} (s : ℚ) (d : ι → FloatVal)
    (m : ι → Bool) : (quantizationApply s d m).2 = m := by
  unfold quantizationApply
  split <;> rfl

theorem dropoutApply_mask_subset {ι : Type} (p : ℚ) (f : FloatVal) (r : ι → ℚ)
    (d : ι → FloatVal) (m : ι → Bool) (i : ι)
    (h : (dropoutApply p f r d m).2 i = true) : m i = true := by
  unfold dropoutApply at h
  split at h
  · exact h
  · simp only at h
    split at h
    · exact absurd h (by simp)
    · exact h

theorem gaussianApply_fst_outside {ι : Type} (s : ℚ) (n : ι → ℚ)
    (d : ι → FloatVal) (m : ι → Bool) (i : ι) (h : m i = false) :
    (gaussianApply s n d m).1 i = d i := by
  unfold gaussianApply
  split
  · rfl
  · simp [h]

theorem multiplicativeApply_fst_outside {ι : Type} (s : ℚ) (n : ι → ℚ)
    (d : ι → FloatVal) (m : ι → Bool) (i : ι) (h : m i = false) :
    (multiplicativeApply s n d m).1 i = d i := by
  unfold multiplicativeApply
  split
  · rfl
  · simp [h]

theorem quantizationApply_fst_outside {ι : Type} (s : ℚ) (d : ι → FloatVal)
    (m : ι → Bool) (i : ι) (h : m i = false) :
    (quantizationApply s d m).1 i = d i := by
  unfold quantizationApply
  split
  · rfl
  · simp [h]

theorem dropoutApply_fst_outside {ι : Type} (p : ℚ) (f : FloatVal) (r : ι → ℚ)
    (d : ι → FloatVal) (m : ι → Bool) (i : ι) (h : m i = false) :
    (dropoutApply p f r d m).1 i = d i := by
  unfold dropoutApply
  split
  · rfl
  · simp [h]

theorem NoiseOp.apply_mask_subset {ι : Type} (op : NoiseOp ι) (d : ι → FloatVal)
    (m : ι → Bool) (i : ι) (h : (op.apply d m).2 i = true) : m i = true := by
  cases op with
  | gaussian s n => rw [show (NoiseOp.apply (gaussian s n) d m) = gaussianApply s n d m from rfl, gaussianApply_snd] at h; exact h
  | multiplicative s n => rw [show (NoiseOp.apply (multiplicative s n) d m) = multiplicativeApply s n d m from rfl, multiplicativeApply_snd] at h; exact h
  | quantization s => rw [show (NoiseOp.apply (quantization s) d m) = quantizationApply s d m from rfl, quantizationApply_snd] at h; exact h
  | dropout p f r => exact dropoutApply_mask_subset p f r d m i h

theorem NoiseOp.apply_mask_false {ι : Type} (op : NoiseOp ι) (d : ι → FloatVal)
    (m : ι → Bool) (i : ι) (h : m i = false) : (op.apply d m).2 i = false := by
  cases hb : (op.apply d m).2 i with
  | false => rfl
  | true => rw [NoiseOp.apply_mask_subset op d m i hb] at h; exact absurd h (by simp)

theorem NoiseOp.apply_outside_value {ι : Type} (op : NoiseOp ι)
    (d : ι → FloatVal) (m : ι → Bool) (i : ι) (h : m i = false) :
    (op.apply d m).1 i = d i := by
  cases op with
  | gaussian s n => exact gaussianApply_fst_outside s n d m i h
  | multiplicative s n => exact multiplicativeApply_fst_outside s n d m i h
  | quantization s => exact quantizationApply_fst_outside s d m i h
  | dropout p f r => exact dropoutApply_fst_outside p f r d m i h

theorem run_noises_cons {ι : Type} (op : NoiseOp ι) (ops : List (NoiseOp ι))
    (s : (ι → FloatVal) × (ι → Bool)) :
    run_noises (op :: ops) s = run_noises ops (NoiseOp.apply op s.1 s.2) := rfl

theorem run_noises_append {ι : Type} (l1 l2 : List (NoiseOp ι))
    (s : (ι → FloatVal) × (ι → Bool)) :
    run_noises (l1 ++ l2) s = run_noises l2 (run_noises l1 s) := by
  simp [run_noises, List.foldl_append]

theorem run_noises_invalid_fixed {ι : Type} (ops : List (NoiseOp ι))
    (s : (ι → FloatVal) × (ι → Bool)) (i : ι) (h : s.2 i = false) :
    (run_noises ops s).1 i = s.1 i ∧ (run_noises ops s).2 i = false := by
  induction ops generalizing s with
  | nil => exact ⟨rfl, h⟩
  | cons op ops ih =>
    have h1 := NoiseOp.apply_outside_value op s.1 s.2 i h
    have h2 := NoiseOp.apply_mask_false op s.1 s.2 i h
    rw [run_noises_cons]
    obtain ⟨ha, hb⟩ := ih (NoiseOp.apply op s.1 s.2) h2
    exact ⟨ha.trans h1, hb⟩

theorem FloatVal.finite_pos_char (x : FloatVal)
    (h : (x.isFinite && x.gtZero) = true) : ∃ q : ℚ, x = .fin q ∧ 0 < q := by
  cases x with
  | fin q =>
    refine ⟨q, rfl, ?_⟩
    simpa [isFinite, gtZero] using h
  | nan => exact absurd h (by simp [isFinite])
  | inf => exact absurd h (by simp [isFinite])
  | neginf => exact absurd h (by simp [isFinite])

/-- The range part of the sanitize-pass validity of `apply_noise_chain`
(step 3): `d <= zmax` exactly when a positive `zmax` is configured. -/
def sanitizeRange (zmax : Option ℚ) (x : FloatVal) : Bool :=
  match zmax with
  | some z => if 0 < z then x.leConst z else true
  | none => true

theorem apply_noise_chain_char {ι : Type} (depth : ι → FloatVal)
    (noises : List (NoiseOp ι)) (zmax : Option ℚ) (invalid_fill : FloatVal)
    (i : ι) :
    apply_noise_chain depth noises zmax invalid_fill true i =
      (if ((run_noises noises (depth, initial_valid_mask depth zmax)).1 i).isFinite
          && ((run_noises noises (depth, initial_valid_mask depth zmax)).1 i).gtZero
          && sanitizeRange zmax ((run_noises noises (depth, initial_valid_mask depth zmax)).1 i)
       then (run_noises noises (depth, initial_valid_mask depth zmax)).1 i
       else invalid_fill) := by
  rcases zmax with _ | z
  · simp [apply_noise_chain, sanitizeRange, Bool.and_true]
  · by_cases hz : 0 < z
    · simp [apply_noise_chain, sanitizeRange, hz]
    · simp [apply_noise_chain, sanitizeRange, hz, Bool.and_true]

theorem vizValid_parts {ι : Type} (d : ι → FloatVal) (zmax : ℚ) (i : ι)
    (h : vizValid d zmax i = true) :
    (d i).isFinite = true ∧ (d i).gtZero = true := by
  unfold vizValid at h
  simp only [Bool.and_eq_true] at h
  exact ⟨h.1.1, h.1.2⟩

theorem vizValid_toRat_pos {ι : Type} (d : ι → FloatVal) (zmax : ℚ) (i : ι)
    (h : vizValid d zmax i = true) : 0 < (d i).toRat := by
  obtain ⟨hf, hp⟩ := vizValid_parts d zmax i h
  cases hdi : d i with
  | fin q =>
    rw [hdi] at hp
    simp only [FloatVal.gtZero, decide_eq_true_eq] at hp
    simpa [hdi, FloatVal.toRat] using hp
  | nan => rw [hdi] at hf; exact absurd hf (by simp [FloatVal.isFinite])
  | inf => rw [hdi] at hf; exact absurd hf (by simp [FloatVal.isFinite])
  | neginf => rw [hdi] at hf; exact absurd hf (by simp [FloatVal.isFinite])

theorem displayCeiling_pos {ι : Type} [Fintype ι] (d : ι → FloatVal)
    (zmax : ℚ) : 0 < displayCeiling d zmax := by
  unfold displayCeiling
  split
  · assumption
  · dsimp only
    split
    · next hne =>
      obtain ⟨b, hb⟩ := hne
      have hb' : vizValid d zmax b = true := by
        simpa using (Finset.mem_filter.mp hb).2
      calc (0 : ℚ) < (d b).toRat := vizValid_toRat_pos d zmax b hb'
        _ ≤ _ := Finset.le_sup' (fun i => (d i).toRat) hb
    · norm_num

theorem displayCeiling_of_pos {ι : Type} [Fintype ι] (d : ι → FloatVal)
    {zmax : ℚ} (hz : 0 < zmax) : displayCeiling d zmax = zmax := by
  unfold displayCeiling
  rw [if_pos hz]

theorem displayCeiling_of_no_valid {ι : Type} [Fintype ι] (d : ι → FloatVal)
    {zmax : ℚ} (hz : zmax ≤ 0) (h : ∀ i, vizValid d zmax i = false) :
    displayCeiling d zmax = 1 := by
  unfold displayCeiling
  rw [if_neg (not_lt.mpr hz)]
  dsimp only
  rw [dif_neg]
  rintro ⟨b, hb⟩
  have hb' : vizValid d zmax b = true := by
    simpa using (Finset.mem_filter.mp hb).2
  rw [h b] at hb'
  exact absurd hb' (by simp)

theorem le_displayCeiling {ι : Type} [Fintype ι] (d : ι → FloatVal)
    {zmax : ℚ} (hz : zmax ≤ 0) (i : ι) (h : vizValid d zmax i = true) :
    (d i).toRat ≤ displayCeiling d zmax := by
  unfold displayCeiling
  rw [if_neg (not_lt.mpr hz)]
  dsimp only
  have hmem : i ∈ Finset.univ.filter (fun j => vizValid d zmax j = true) := by
    simp [h]
  rw [dif_pos ⟨i, hmem⟩]
  exact Finset.le_sup' (fun j => (d j).toRat) hmem

/-! ### Claim theorems -/

/-- C1: For every noise operator (Gaussian, Multiplicative, Quantization,
Dropout) and for every input depth frame and validity mask, the mask
returned by `apply` is a subset of the input mask: no pixel that was invalid
in the input mask is valid in the returned mask. -/
theorem mask_monotonicity {ι : Type} (op : NoiseOp ι) (d : ι → FloatVal)
    (m : ι → Bool) (i : ι) (h : (op.apply d m).2 i = true) : m i = true :=
  NoiseOp.apply_mask_subset op d m i h

theorem mask_monotonicity_witness :
    (fun _ : Fin 1 => true) 0 = true :=
  mask_monotonicity (NoiseOp.gaussian 1 (fun _ => 0)) (fun _ => FloatVal.fin 2)
    (fun _ => true) 0 (by decide)

/-- C2: Every pixel of the array returned by `apply_noise_chain` (with the
default `nonpositive_to_zero = True`) is either finite, strictly positive and
within `zmax` when a positive `zmax` is configured, or exactly equal to
`invalid_fill`; no other values appear. -/
theorem noise_chain_output_classified {ι : Type} (depth : ι → FloatVal)
    (noises : List (NoiseOp ι)) (zmax : Option ℚ) (invalid_fill : FloatVal)
    (i : ι) :
    (∃ q : ℚ, apply_noise_chain depth noises zmax invalid_fill true i = .fin q
        ∧ 0 < q ∧ ∀ z : ℚ, zmax = some z → 0 < z → q ≤ z)
    ∨ apply_noise_chain depth noises zmax invalid_fill true i = invalid_fill := by
  rw [apply_noise_chain_char]
  set x := (run_noises noises (depth, initial_valid_mask depth zmax)).1 i with hx
  by_cases hv : (x.isFinite && x.gtZero && sanitizeRange zmax x) = true
  · left
    have hv2 := hv
    rw [Bool.and_eq_true] at hv2
    have hfp : (x.isFinite && x.gtZero) = true := hv2.1
    obtain ⟨q, hq, hpos⟩ := FloatVal.finite_pos_char x hfp
    refine ⟨q, by rw [if_pos hv, hq], hpos, ?_⟩
    intro z hz hzpos
    have hr : sanitizeRange zmax x = true := hv2.2
    rw [hz] at hr
    simp only [sanitizeRange, if_pos hzpos] at hr
    rw [hq] at hr
    simpa [FloatVal.leConst] using hr
  · right
    rw [if_neg hv]

/-- C5: Each zero-magnitude operator is the identity on both frame and mask:
Gaussian with `sigma_m = 0`, Multiplicative with `sigma_rel = 0`,
Quantization with `step_m = 0`, and Dropout with `p = 0` each return the
input depth frame and validity mask unchanged, for every input. -/
theorem zero_magnitude_noop {ι : Type} (n r : ι → ℚ) (fill : FloatVal)
    (d : ι → FloatVal) (m : ι → Bool) :
    gaussianApply 0 n d m = (d, m) ∧ multiplicativeApply 0 n d m = (d, m)
    ∧ quantizationApply 0 d m = (d, m) ∧ dropoutApply 0 fill r d m = (d, m) := by
  refine ⟨?_, ?_, ?_, ?_⟩ <;>
    simp [gaussianApply, multiplicativeApply, quantizationApply, dropoutApply]

/-- C6: For every noise operator, every input frame, and every mask, the
depth values at pixels where the input mask is false are returned unchanged
by `apply`: only pixels inside the mask may have their values modified. -/
theorem values_outside_mask_unchanged {ι : Type} (op : NoiseOp ι)
    (d : ι → FloatVal) (m : ι → Bool) (i : ι) (h : m i = false) :
    (op.apply d m).1 i = d i :=
  NoiseOp.apply_outside_value op d m i h

theorem values_outside_mask_unchanged_witness :
    ((NoiseOp.dropout 1 (FloatVal.fin 0) (fun _ => 0)).apply
        (fun _ : Fin 1 => FloatVal.fin 2) (fun _ => false)).1 0 = FloatVal.fin 2 :=
  values_outside_mask_unchanged (NoiseOp.dropout 1 (FloatVal.fin 0) (fun _ => 0))
    (fun _ => FloatVal.fin 2) (fun _ => false) 0 rfl

/-- C7: Quantization is idempotent: for every `step_m > 0`, every depth frame
and every mask, applying the Quantization operator twice in succession
yields the same (frame, mask) pair as applying it once. -/
theorem quantization_idempotent {ι : Type} (step : ℚ) (h : 0 < step)
    (d : ι → FloatVal) (m : ι → Bool) :
    quantizationApply step (quantizationApply step d m).1
        (quantizationApply step d m).2
      = quantizationApply step d m := by
  have hns : ¬ step ≤ 0 := not_le.mpr h
  have hsnd := quantizationApply_snd step d m
  have hfst : (quantizationApply step d m).1
      = fun i => if m i = true then (d i).quantize step else d i := by
    unfold quantizationApply
    rw [if_neg hns]
  conv_lhs => rw [hsnd, hfst]
  unfold quantizationApply
  rw [if_neg hns, if_neg hns]
  refine Prod.ext ?_ rfl
  funext i
  by_cases hm : m i = true
  · simp [hm, FloatVal.quantize_quantize step h]
  · simp [hm]

theorem quantization_idempotent_witness :
    quantizationApply (1 / 10)
        (quantizationApply (1 / 10) (fun _ : Fin 1 => FloatVal.fin (1234 / 1000))
          (fun _ => true)).1
        (quantizationApply (1 / 10) (fun _ : Fin 1 => FloatVal.fin (1234 / 1000))
          (fun _ => true)).2
      = quantizationApply (1 / 10) (fun _ : Fin 1 => FloatVal.fin (1234 / 1000))
          (fun _ => true) :=
  quantization_idempotent (1 / 10) (by norm_num)
    (fun _ => FloatVal.fin (1234 / 1000)) (fun _ => true)

/-- Concrete frame for the visualizer auto-ceiling scenario: one valid pixel
at 3.0 m, the other pixel invalid (NaN). -/
def dAuto : Fin 2 → FloatVal := fun i => if i = 0 then .fin 3 else .nan

/-- C3: When the visualizer is given `zmax ≤ 0` it does not fail: the display
ceiling is the maximum value among currently-valid pixels, falling back to
1.0 when none are valid, and a pixel whose value attains the ceiling encodes
at the maximum display value 65535.  (`toDisplay` is total here, so the
"does not fail" part is expressed by the function being defined for
`zmax ≤ 0` at all.) -/
theorem visualizer_auto_ceiling {ι : Type} [Fintype ι] (d : ι → FloatVal)
    (zmax : ℚ) (hz : zmax ≤ 0) :
    ((∀ i, vizValid d zmax i = false) → displayCeiling d zmax = 1)
    ∧ (∀ i, vizValid d zmax i = true → (d i).toRat ≤ displayCeiling d zmax)
    ∧ ((∃ j, vizValid d zmax j = true) →
        ∃ k, vizValid d zmax k = true ∧ (d k).toRat = displayCeiling d zmax)
    ∧ (∀ i, vizValid d zmax i = true →
        (d i).toRat = displayCeiling d zmax → toDisplay16 d zmax i = 65535) := by
  refine ⟨displayCeiling_of_no_valid d hz, le_displayCeiling d hz, ?_, ?_⟩
  · rintro ⟨j, hj⟩
    have hne : (Finset.univ.filter (fun i => vizValid d zmax i = true)).Nonempty :=
      ⟨j, by simp [hj]⟩
    obtain ⟨b, hb, hsup⟩ := Finset.exists_mem_eq_sup' hne (fun i => (d i).toRat)
    refine ⟨b, ?_, ?_⟩
    · simpa using (Finset.mem_filter.mp hb).2
    · unfold displayCeiling
      rw [if_neg (not_lt.mpr hz)]
      dsimp only
      rw [dif_pos hne]
      exact hsup.symm
  · intro i hvi hmax
    have hc : 0 < displayCeiling d zmax := displayCeiling_pos d zmax
    unfold toDisplay16
    rw [if_pos hvi, hmax]
    have h1 : clampQ (displayCeiling d zmax) 0 (displayCeiling d zmax)
        = displayCeiling d zmax := by
      unfold clampQ
      rw [max_eq_left (le_of_lt hc), min_self]
    rw [h1, div_self (ne_of_gt hc), one_mul]
    have h2 : (65535 : ℚ) = ((65535 : ℤ) : ℚ) := by norm_num
    rw [h2, roundHalfEven_intCast]

theorem visualizer_auto_ceiling_witness : toDisplay16 dAuto 0 0 = 65535 :=
  (visualizer_auto_ceiling dAuto 0 (le_refl 0)).2.2.2 0 (by decide) (by decide)


theorem clampQ_nonneg (x hi : ℚ) (h : 0 ≤ hi) : 0 ≤ clampQ x 0 hi :=
  le_min (le_max_right _ _) h

theorem clampQ_le_hi (x lo hi : ℚ) : clampQ x lo hi ≤ hi := min_le_right _ _

/-- Concrete frame refuting the "0 is reserved for invalid" reading: a single
valid pixel with a very small depth (10 µm) against `zmax = 10`. -/
def dTiny : Fin 1 → FloatVal := fun _ => .fin (1 / 100000)

/-- C4 counterexample: with `zmax = 10` the pixel at depth 1/100000 m is
valid (finite, positive, within range), yet its 16-bit encoding
`round(clamp(v,0,10)/10 * 65535) = round(0.065535)` is 0 — the code point 0
is not reserved for invalid pixels, since a sufficiently small valid depth
also encodes as 0. -/
theorem display16_zero_not_reserved :
    vizValid dTiny 10 0 = true ∧ toDisplay16 dTiny 10 0 = 0 := by
  have hviz : vizValid dTiny 10 0 = true := by
    norm_num [vizValid, dTiny, FloatVal.isFinite, FloatVal.gtZero, FloatVal.leConst]
  refine ⟨hviz, ?_⟩
  have hceil : displayCeiling dTiny 10 = 10 :=
    displayCeiling_of_pos dTiny (by norm_num)
  unfold toDisplay16
  rw [if_pos hviz, hceil]
  have htiny : clampQ (FloatVal.toRat (dTiny 0)) 0 10 / 10 * 65535
      = 13107 / 200000 := by
    have h1 : clampQ (FloatVal.toRat (dTiny 0)) 0 10 = 1 / 100000 := by
      unfold clampQ
      norm_num [dTiny, FloatVal.toRat]
    rw [h1]
    norm_num
  rw [htiny]
  have hfl : ⌊(13107 / 200000 : ℚ)⌋ = 0 := by
    rw [Int.floor_eq_zero_iff]
    constructor <;> norm_num
  unfold roundHalfEven
  rw [hfl]
  norm_num

/-- C4 (amended): in the 16-bit visualization mode with a positive finite
`zmax`, every invalid pixel encodes as exactly 0, every valid pixel encodes
as `round(clamp(value,0,ceiling)/ceiling * 65535)` with `ceiling = zmax`,
and all encoded values lie in [0, 65535].  (The original claim's added gloss
that 0 is "reserved" for invalid pixels fails: a valid pixel with a small
enough depth also encodes as 0, see the counterexample.) -/
theorem display16_encoding {ι : Type} [Fintype ι] (d : ι → FloatVal)
    (zmax : ℚ) (hz : 0 < zmax) :
    (∀ i, vizValid d zmax i = false → toDisplay16 d zmax i = 0)
    ∧ (∀ i, vizValid d zmax i = true →
        toDisplay16 d zmax i
          = roundHalfEven (clampQ (d i).toRat 0 zmax / zmax * 65535))
    ∧ (∀ i, 0 ≤ toDisplay16 d zmax i ∧ toDisplay16 d zmax i ≤ 65535) := by
  have hceil : displayCeiling d zmax = zmax := displayCeiling_of_pos d hz
  refine ⟨?_, ?_, ?_⟩
  · intro i hvi
    unfold toDisplay16
    rw [if_neg]
    simp [hvi]
  · intro i hvi
    unfold toDisplay16
    rw [if_pos hvi, hceil]
  · intro i
    by_cases hvi : vizValid d zmax i = true
    · have hx0 : 0 ≤ clampQ (d i).toRat 0 zmax / zmax * 65535 := by
        apply mul_nonneg _ (by norm_num)
        exact div_nonneg (clampQ_nonneg _ _ (le_of_lt hz)) (le_of_lt hz)
      have hq1 : clampQ (d i).toRat 0 zmax / zmax ≤ 1 :=
        (div_le_one hz).mpr (clampQ_le_hi _ _ _)
      have hx1 : clampQ (d i).toRat 0 zmax / zmax * 65535 ≤ ((65535 : ℤ) : ℚ) := by
        have h2 := mul_le_of_le_one_left (by norm_num : (0:ℚ) ≤ 65535) hq1
        push_cast
        linarith
      unfold toDisplay16
      rw [if_pos hvi, hceil]
      exact ⟨roundHalfEven_nonneg hx0, roundHalfEven_le_of_le 65535 hx1⟩
    · unfold toDisplay16
      rw [if_neg hvi]
      norm_num

theorem display16_encoding_witness :
    0 ≤ toDisplay16 (fun _ : Fin 1 => FloatVal.fin 2) 10 0
    ∧ toDisplay16 (fun _ : Fin 1 => FloatVal.fin 2) 10 0 ≤ 65535 :=
  (display16_encoding (fun _ : Fin 1 => FloatVal.fin 2) 10 (by norm_num)).2.2 0

/-- C8: When an `invalidColor` is supplied, the visualizer produces a
3-channel 8-bit raster in which every valid pixel renders as the grayscale
triple `round(clamp(value,0,ceiling)/ceiling * 255)` replicated across the
three channels (a value in [0, 255]), and every invalid pixel renders as
exactly the literal `invalidColor` triple. -/
theorem display8_encoding {ι : Type} [Fintype ι] (d : ι → FloatVal)
    (zmax : ℚ) (invalidColor : ℤ × ℤ × ℤ) :
    (∀ i, vizValid d zmax i = false →
      toDisplay8 d zmax invalidColor i = invalidColor)
    ∧ (∀ i, vizValid d zmax i = true →
        ∃ g : ℤ, toDisplay8 d zmax invalidColor i = (g, g, g)
          ∧ g = roundHalfEven
              (clampQ (d i).toRat 0 (displayCeiling d zmax)
                / displayCeiling d zmax * 255)
          ∧ 0 ≤ g ∧ g ≤ 255) := by
  have hc : 0 < displayCeiling d zmax := displayCeiling_pos d zmax
  constructor
  · intro i hvi
    unfold toDisplay8
    rw [if_neg]
    simp [hvi]
  · intro i hvi
    refine ⟨roundHalfEven
        (clampQ (d i).toRat 0 (displayCeiling d zmax)
          / displayCeiling d zmax * 255), ?_, rfl, ?_, ?_⟩
    · unfold toDisplay8
      rw [if_pos hvi]
    · apply roundHalfEven_nonneg
      apply mul_nonneg _ (by norm_num)
      exact div_nonneg (clampQ_nonneg _ _ (le_of_lt hc)) (le_of_lt hc)
    · apply roundHalfEven_le_of_le
      have hq1 : clampQ (d i).toRat 0 (displayCeiling d zmax)
          / displayCeiling d zmax ≤ 1 :=
        (div_le_one hc).mpr (clampQ_le_hi _ _ _)
      have h2 := mul_le_of_le_one_left (by norm_num : (0:ℚ) ≤ 255) hq1
      push_cast
      linarith

/-- A raw noise table carrying a Gaussian sigma of -1 m: out of the domain
the spec declares (`sigma_m ≥ 0`). -/
def rawNeg : RawNoiseTable :=
  { gaussian := some { enabled := some true, sigma_m := some (-1) } }

/-- C9 counterexample: `_parse_noise` accepts a negative Gaussian sigma and
returns a well-formed `NoiseConfig` carrying it — no ConfigError, no
validation of any kind exists in the code (the embedding of `_parse_noise`
is total) — and the Gaussian operator then silently processes the frame as a
no-op (`sigma_m <= 0` branch).  This refutes the claim that an out-of-domain
noise parameter "causes a ConfigError that fails fast" and is "never
silently accepted". -/
theorem out_of_domain_param_accepted :
    (parse_noise rawNeg).gaussian.sigma_m = -1
    ∧ ¬ specNoiseParamsInDomain (parse_noise rawNeg)
    ∧ (NoiseOp.gaussian (-1) (fun _ => 0)).apply
        (fun _ : Fin 1 => FloatVal.fin 2) (fun _ => true)
      = (fun _ => FloatVal.fin 2, fun _ => true) := by
  refine ⟨rfl, ?_, ?_⟩
  · intro hdom
    have h1 : (parse_noise rawNeg).gaussian.sigma_m = -1 := rfl
    have h2 := hdom.1
    rw [h1] at h2
    norm_num at h2
  · show gaussianApply (-1) (fun _ => 0) (fun _ : Fin 1 => FloatVal.fin 2)
        (fun _ => true) = (fun _ => FloatVal.fin 2, fun _ => true)
    unfold gaussianApply
    rw [if_pos (by norm_num : (-1 : ℚ) ≤ 0)]

/-- C9 (amended): noise parameters outside their spec-declared domain are
silently accepted rather than rejected — `_parse_noise` performs no domain
validation (it returns a configuration for every raw table, including one
with a negative sigma), a non-positive sigma or step makes the corresponding
operator an identity no-op, and a dropout probability `p ≥ 1` is used
directly in the comparison `rand < p`, so with uniform samples in [0, 1) it
drops every valid pixel; no ConfigError exists anywhere in the code. -/
theorem out_of_domain_params_silently_accepted {ι : Type} (sg sr st p : ℚ)
    (hsg : sg ≤ 0) (hsr : sr ≤ 0) (hst : st ≤ 0) (hp : 1 ≤ p)
    (n r : ι → ℚ) (fill : FloatVal) (d : ι → FloatVal) (m : ι → Bool)
    (hr : ∀ i, 0 ≤ r i ∧ r i < 1) :
    gaussianApply sg n d m = (d, m)
    ∧ multiplicativeApply sr n d m = (d, m)
    ∧ quantizationApply st d m = (d, m)
    ∧ (∀ i, (dropoutApply p fill r d m).2 i = false)
    ∧ ¬ specNoiseParamsInDomain (parse_noise rawNeg) := by
  refine ⟨?_, ?_, ?_, ?_, ?_⟩
  · unfold gaussianApply
    rw [if_pos hsg]
  · unfold multiplicativeApply
    rw [if_pos hsr]
  · unfold quantizationApply
    rw [if_pos hst]
  · intro i
    have hplt : ¬ p ≤ 0 := by linarith
    have hlt : r i < p := lt_of_lt_of_le (hr i).2 hp
    unfold dropoutApply
    rw [if_neg hplt]
    simp only
    rcases Bool.dichotomy (m i) with hm | hm <;> simp [hm, hlt]
  · intro hdom
    have h1 : (parse_noise rawNeg).gaussian.sigma_m = -1 := rfl
    have h2 := hdom.1
    rw [h1] at h2
    norm_num at h2

theorem out_of_domain_params_silently_accepted_witness :
    gaussianApply (-1) (fun _ : Fin 1 => 0) (fun _ => FloatVal.fin 2)
        (fun _ => true)
      = (fun _ => FloatVal.fin 2, fun _ => true) :=
  (out_of_domain_params_silently_accepted (-1) (-1) (-1) 1 (by norm_num)
    (by norm_num) (by norm_num) (le_refl 1) (fun _ => 0) (fun _ => 0)
    (FloatVal.fin 0) (fun _ => FloatVal.fin 2) (fun _ => true)
    (fun _ => ⟨le_refl 0, by norm_num⟩)).1

/-- C10: If the Dropout operator's fill value is itself finite, strictly
positive, and within `zmax` (when a positive `zmax` is configured), then a
pixel it drops inside `apply_noise_chain` — valid when Dropout runs, with its
uniform sample below `p` — is re-classified as valid by the final sanitize
pass, which re-derives validity from the post-noise values alone, and
appears in the chain's output with value `fill` rather than `invalid_fill`:
that the pixel was dropped is not observable in the output array.  (Later
operators cannot touch the pixel, because it is outside their mask.) -/
theorem dropout_fill_revalidated {ι : Type} (depth : ι → FloatVal)
    (pre post : List (NoiseOp ι)) (p f : ℚ) (r : ι → ℚ) (zmax : Option ℚ)
    (invalid_fill : FloatVal) (i : ι)
    (hp : 0 < p) (hdrop : r i < p)
    (hmid : (run_noises pre (depth, initial_valid_mask depth zmax)).2 i = true)
    (hfpos : 0 < f) (hfz : ∀ z : ℚ, zmax = some z → 0 < z → f ≤ z) :
    apply_noise_chain depth (pre ++ NoiseOp.dropout p (.fin f) r :: post) zmax
      invalid_fill true i = .fin f := by
  rw [apply_noise_chain_char]
  have hsplit : run_noises (pre ++ NoiseOp.dropout p (.fin f) r :: post)
      (depth, initial_valid_mask depth zmax)
      = run_noises post (NoiseOp.apply (NoiseOp.dropout p (.fin f) r)
          (run_noises pre (depth, initial_valid_mask depth zmax)).1
          (run_noises pre (depth, initial_valid_mask depth zmax)).2) := by
    rw [run_noises_append, run_noises_cons]
  have hpd : ¬ p ≤ 0 := not_le.mpr hp
  have hdropbit : (decide (r i < p)
      && (run_noises pre (depth, initial_valid_mask depth zmax)).2 i) = true := by
    rw [hmid]
    simp [hdrop]
  have happly1 : (NoiseOp.apply (NoiseOp.dropout p (.fin f) r)
      (run_noises pre (depth, initial_valid_mask depth zmax)).1
      (run_noises pre (depth, initial_valid_mask depth zmax)).2).1 i
      = .fin f := by
    show (dropoutApply p (.fin f) r _ _).1 i = _
    unfold dropoutApply
    rw [if_neg hpd]
    simp only
    rw [if_pos hdropbit]
  have happly2 : (NoiseOp.apply (NoiseOp.dropout p (.fin f) r)
      (run_noises pre (depth, initial_valid_mask depth zmax)).1
      (run_noises pre (depth, initial_valid_mask depth zmax)).2).2 i
      = false := by
    show (dropoutApply p (.fin f) r _ _).2 i = _
    unfold dropoutApply
    rw [if_neg hpd]
    simp only
    rw [if_pos hdropbit]
  have hfixed := run_noises_invalid_fixed post
    (NoiseOp.apply (NoiseOp.dropout p (.fin f) r)
      (run_noises pre (depth, initial_valid_mask depth zmax)).1
      (run_noises pre (depth, initial_valid_mask depth zmax)).2) i happly2
  have hx : (run_noises (pre ++ NoiseOp.dropout p (.fin f) r :: post)
      (depth, initial_valid_mask depth zmax)).1 i = .fin f := by
    rw [hsplit, hfixed.1, happly1]
  rw [hx]
  have hcond : ((FloatVal.fin f).isFinite && (FloatVal.fin f).gtZero
      && sanitizeRange zmax (.fin f)) = true := by
    have h2 : (FloatVal.fin f).gtZero = true := by
      simp [FloatVal.gtZero, hfpos]
    have h3 : sanitizeRange zmax (.fin f) = true := by
      rcases zmax with _ | z
      · rfl
      · simp only [sanitizeRange]
        split
        · next hz => simpa [FloatVal.leConst] using hfz z rfl hz
        · rfl
    simp [FloatVal.isFinite, h2, h3]
  rw [if_pos hcond]

theorem dropout_fill_revalidated_witness :
    apply_noise_chain (fun _ : Fin 1 => FloatVal.fin 2)
      ([] ++ NoiseOp.dropout 1 (FloatVal.fin 1) (fun _ => 0) :: []) (some 10)
      (FloatVal.fin 0) true 0 = FloatVal.fin 1 :=
  dropout_fill_revalidated (fun _ => FloatVal.fin 2) [] [] 1 1 (fun _ => 0)
    (some 10) (FloatVal.fin 0) 0 (by norm_num) (by norm_num) (by decide)
    (by norm_num) (by intro z hz hzp; cases hz; norm_num)
